import Mathlib

/-!
# Verification of the laibao_counter scoring engine

Shallow embedding of the repository's core logic:

* `data_manager.py` (`DataManager`): the persisted ledger document and its
  operations (`update_scores_with_rewards`, `update_existing_file_scores`,
  `merge_nicknames`, `get_leaderboard`, `get_processed_files`,
  `export_user_data`, `import_data`).
* `excel_processor.py` (`ExcelProcessor`): column discovery
  (`find_nickname_column`), nickname cleaning (`clean_nickname`), image/weight
  counting (`count_images_in_excel`) and the dedup-extraction loop of
  `extract_nicknames_and_times_from_file`.

Modelling conventions:

* Python `dict`s (insertion ordered, unique keys) are association lists; an
  update of an existing key rewrites the first matching entry in place, a new
  key is appended at the end, `del` removes the entry.
* Python `float`/`int` score arithmetic is modelled with `ℚ` (exact rational
  arithmetic); roster weights are `ℤ`.
* `datetime.now().isoformat()` is nondeterministic, so every operation that
  stamps a date takes the stamp as an explicit `now : String` argument.
* Operations that can raise (`KeyError` on a missing dict key, `ValueError` on
  a length mismatch) return `Except PyErr _`; a raised exception happens before
  `save_data`, so the persisted document is unchanged in the error case.
* JSON serialisation round-trips the document unchanged, so
  `export_user_data`/`import_data` are composed directly on documents; a JSON
  key that may be absent is an `Option` field.
-/

/-- Python exceptions that the modelled code paths can raise:
`KeyError` (with the missing key) and the `ValueError` raised by
`update_scores_with_rewards` on a weights/nicknames length mismatch. -/
inductive PyErr where
  | valueError : PyErr
  | keyError : String → PyErr
deriving DecidableEq, Repr

/-- One entry of a participant's `files` list
(`data_manager.py` lines 168-175, 262-267).  `base_score` and `is_rewarded`
are `Option`s because the legacy path `update_existing_file_scores` appends
records without those keys. -/
structure Contribution where
  file_name : String
  date : String
  weight : ℚ
  points : ℚ
  base_score : Option ℚ
  is_rewarded : Option Bool
deriving DecidableEq, Repr

/-- A participant record: `{"score": ..., "files": [...]}`. -/
structure Participant where
  score : ℚ
  files : List Contribution
deriving DecidableEq, Repr

/-- A value of the `processed_files` registry.  `update_scores_with_rewards`
(lines 198-201) writes only `processed_date`; `update_existing_file_scores`
(lines 238-243) writes `processed_date`, `nicknames_count`, `weight` and
`total_points`.  All other keys are only ever read with defaults. -/
structure FileRec where
  processed_date : String
  nicknames_count : Option ℕ
  weight : Option ℚ
  base_score : Option ℚ
  total_points : Option ℚ
  reward_count : Option ℤ
  reward_multiplier : Option ℚ
  rewarded_users : Option (List String)
deriving DecidableEq, Repr

/-- A `processed_files` entry holding only `processed_date`, as written by
`update_scores_with_rewards` lines 199-201. -/
def freshFileRec (now : String) : FileRec :=
  ⟨now, none, none, none, none, none, none, none⟩

/-- A participant map (`records`, `records_by_nickname` or `records_by_name`):
an insertion-ordered Python dict. -/
abbrev RecMap := List (String × Participant)

/-- The persisted ledger document.  `records` is the legacy map: `load_data`
only guarantees `records_by_nickname`, `records_by_name` and
`processed_files`, so the `records` key is absent (`none`) unless the loaded
JSON happened to contain it.  `total_files_processed`, `exported_at` and
`session_id` model the equally optional top-level JSON keys. -/
structure Doc where
  records : Option RecMap
  records_by_nickname : RecMap
  records_by_name : RecMap
  processed_files : List (String × FileRec)
  last_updated : String
  total_files_processed : Option ℤ
  exported_at : Option String
  session_id : Option String
deriving DecidableEq, Repr

/-- The document created by `ensure_data_file_exists` (lines 39-44): empty
maps, no legacy `records` key, no `total_files_processed` key. -/
def initDoc (now : String) : Doc :=
  ⟨none, [], [], [], now, none, none, none⟩

/-- Python's `str.strip()`: drop leading and trailing whitespace.  Defined
on the character list so that it evaluates by kernel reduction. -/
def pyStrip (s : String) : String :=
  String.mk
    (((s.data.dropWhile Char.isWhitespace).reverse.dropWhile
        Char.isWhitespace).reverse)

namespace PyDict

/-- Rewrite the value of the first entry whose key is `k` (Python dict update
of an existing key: the entry keeps its position). -/
def updFirst {β : Type} : List (String × β) → String → (β → β) → List (String × β)
  | [], _, _ => []
  | (a, v) :: rest, k, f =>
    if a = k then (a, f v) :: rest else (a, v) :: updFirst rest k f

/-- `m[k] = v` on a Python dict: overwrite in place if the key exists,
otherwise append at the end. -/
def setKey {β : Type} (m : List (String × β)) (k : String) (v : β) :
    List (String × β) :=
  if (m.lookup k).isSome then updFirst m k (fun _ => v) else m ++ [(k, v)]

/-- `del m[k]` on a Python dict: drop the first entry with key `k`. -/
def delKey {β : Type} : List (String × β) → String → List (String × β)
  | [], _ => []
  | (a, v) :: rest, k => if a = k then rest else (a, v) :: delKey rest k

end PyDict

namespace PySort

variable {α : Type}

/-- Insert `x` into `l` in front of the first element `y` with `le x y`.
Folding this over a list yields exactly the output of Python's stable
`list.sort`: an element inserted later is placed after earlier elements that
compare equal to it. -/
def insertBy (le : α → α → Bool) (x : α) : List α → List α
  | [] => [x]
  | y :: ys => if le x y then x :: y :: ys else y :: insertBy le x ys

/-- Stable sort with respect to the boolean comparison `le` (the observable
behaviour of Python's `list.sort(key=..., reverse=...)`, which is a stable
sort for any fixed key/direction). -/
def sortBy (le : α → α → Bool) : List α → List α
  | [] => []
  | x :: xs => insertBy le x (sortBy le xs)

end PySort

namespace DataManager

open PyDict PySort

/-- The participant map an operation works on, chosen by its `group_by`
argument (`data_manager.py` lines 122-125). -/
def chosenMap (d : Doc) (group_by : String) : RecMap :=
  if group_by = "name" then d.records_by_name else d.records_by_nickname

/-- The score a participant map holds for an identifier (0 when absent). -/
def scoreOf (m : RecMap) (n : String) : ℚ :=
  match m.lookup n with
  | some r => r.score
  | none => 0

/-- First-occurrence deduplication with an accumulator of already seen
values; models the observable content of a Python `set` built from a list
(membership and cardinality). -/
def dedupFirstGo : List String → List String → List String
  | _, [] => []
  | seen, x :: xs =>
    if x ∈ seen then dedupFirstGo seen xs else x :: dedupFirstGo (x :: seen) xs

def dedupFirst (l : List String) : List String := dedupFirstGo [] l

/-- The time filter of `update_scores_with_rewards` line 142:
`time_str and str(time_str).strip() and str(time_str) != 'nan'`. -/
def validTime (t : String) : Bool :=
  (t != "") && (pyStrip t != "") && (t != "nan")

/-- Comparison used for `time_pairs.sort(key=lambda x: str(x[1]))`:
ascending and stable, so a pair `x` is inserted in front of the first `y`
whose time is not smaller than `x`'s. -/
def timeLe (a b : String × String) : Bool := !(decide (b.2 < a.2))

/-- The rewarded-identifier set of `update_scores_with_rewards`
(lines 139-149): the first `reward_count` nicknames of the valid
(nickname, time) pairs, stably sorted ascending by the raw time string,
collected into a set. -/
def rewardUsersOf (nicknames times : List String) (reward_count : ℤ) :
    List String :=
  if reward_count > 0 ∧ times ≠ [] ∧ times.any (fun t => t != "") then
    let time_pairs := (nicknames.zip times).filter (fun p => validTime p.2)
    if time_pairs ≠ [] then
      dedupFirst (((sortBy timeLe time_pairs).take reward_count.toNat).map
        Prod.fst)
    else []
  else []

/-- Add one scoring contribution for key `k` (lines 166-187): an existing
record gains `c.points` on `score` and appends `c` to `files`; a missing key
is inserted with `score = c.points` and the singleton history `[c]`. -/
def updRecord (m : RecMap) (k : String) (c : Contribution) : RecMap :=
  if (m.lookup k).isSome then
    updFirst m k (fun r => ⟨r.score + c.points, r.files ++ [c]⟩)
  else m ++ [(k, ⟨c.points, [c]⟩)]

/-- The per-row loop of `update_scores_with_rewards` (lines 152-187) over
the zipped (nickname, weight) rows: blank nicknames are skipped, others are
stripped and credited `base * weight`, multiplied by `mult` when the stripped
nickname is in the rewarded set `rus`. -/
def scoreLoop (rus : List String) (now fn : String) (base mult : ℚ) :
    RecMap → List (String × ℤ) → RecMap
  | m, [] => m
  | m, (n, uw) :: rest =>
    if pyStrip n ≠ "" then
      let n2 := pyStrip n
      let basic := base * (uw : ℚ)
      let rewarded : Bool := decide (n2 ∈ rus)
      let pts := if rewarded then mult * basic else basic
      scoreLoop rus now fn base mult
        (updRecord m n2 ⟨fn, now, (uw : ℚ), pts, some base, some rewarded⟩) rest
    else scoreLoop rus now fn base mult m rest

/-- Body of `update_scores_with_rewards` after the weight list has been
normalised (lines 135-205).  The unused `avg_weight` of line 136 is kept as
`_avg_weight` for fidelity.  Returns the updated document and
`len(reward_users)`. -/
def updateScoresGo (d : Doc) (now : String) (nicknames times : List String)
    (file_name : String) (weights : List ℤ) (base_score : ℚ)
    (reward_count : ℤ) (reward_multiplier : ℚ) (group_by : String) :
    Doc × ℕ :=
  let records := chosenMap d group_by
  let _avg_weight : ℚ :=
    if weights ≠ [] then
      ((weights.map (fun w => (w : ℚ))).sum) / (weights.length : ℚ)
    else 1
  let reward_users := rewardUsersOf nicknames times reward_count
  let records2 := scoreLoop reward_users now file_name base_score
    reward_multiplier records (nicknames.zip weights)
  let d1 := if group_by = "name" then { d with records_by_name := records2 }
            else { d with records_by_nickname := records2 }
  let d2 := if file_name ≠ "" ∧ (d1.processed_files.lookup file_name).isNone
            then { d1 with processed_files :=
                    d1.processed_files ++ [(file_name, freshFileRec now)] }
            else d1
  ({ d2 with last_updated := now }, reward_users.length)

/-- `DataManager.update_scores_with_rewards` (lines 101-205).  `weight` is
`int` (broadcast, line 129) or a per-row `List[int]` whose length must match
`nicknames` (lines 131-133, `ValueError` on mismatch, raised before anything
is saved).  The unused `names` parameter of the source is omitted.  The
result pairs the saved document with the returned `len(reward_users)`. -/
def updateScoresWithRewards (d : Doc) (now : String)
    (nicknames times : List String) (file_name : String)
    (weight : Sum ℤ (List ℤ)) (base_score : ℚ) (reward_count : ℤ)
    (reward_multiplier : ℚ) (group_by : String) : Except PyErr (Doc × ℕ) :=
  match weight with
  | .inl w =>
    .ok (updateScoresGo d now nicknames times file_name
      (List.replicate nicknames.length w) base_score reward_count
      reward_multiplier group_by)
  | .inr ws =>
    if ws.length ≠ nicknames.length then .error .valueError
    else
      .ok (updateScoresGo d now nicknames times file_name ws base_score
        reward_count reward_multiplier group_by)

/-- The for/else of `update_existing_file_scores` (lines 254-267): rewrite
the first contribution matching `file_name` in place, or append a new one
(written without `base_score`/`is_rewarded` keys) when none matches. -/
def updFileRecords (fn now : String) (nw : ℤ) :
    List Contribution → List Contribution
  | [] => [⟨fn, now, (nw : ℚ), (nw : ℚ), none, none⟩]
  | c :: cs =>
    if c.file_name = fn then
      { c with weight := (nw : ℚ), points := (nw : ℚ), date := now } :: cs
    else c :: updFileRecords fn now nw cs

/-- One non-blank nickname step of `update_existing_file_scores`
(lines 247-278) on the legacy `records` map. -/
def existingStep (m : RecMap) (n2 fn now : String) (nw : ℤ) (diff : ℚ) :
    RecMap :=
  if (m.lookup n2).isSome then
    updFirst m n2 (fun r => ⟨r.score + diff, updFileRecords fn now nw r.files⟩)
  else m ++ [(n2, ⟨(nw : ℚ), [⟨fn, now, (nw : ℚ), (nw : ℚ), none, none⟩]⟩)]

/-- The nickname loop of `update_existing_file_scores` (lines 246-278).
The loop reads `data["records"]`, so the first non-blank nickname raises
`KeyError` when the document has no legacy `records` key. -/
def existingLoop (fn now : String) (nw : ℤ) (diff : ℚ) :
    Option RecMap → List String → Except PyErr (Option RecMap)
  | recs, [] => .ok recs
  | recs, n :: rest =>
    if pyStrip n ≠ "" then
      match recs with
      | none => .error (.keyError "records")
      | some m =>
        existingLoop fn now nw diff
          (some (existingStep m (pyStrip n) fn now nw diff)) rest
    else existingLoop fn now nw diff recs rest

/-- `DataManager.update_existing_file_scores` (lines 218-280): reads the old
weight from the processed-file entry (default 1), rewrites that entry with
`processed_date`, `nicknames_count`, `weight` and `total_points`, then adds
`new_weight - old_weight` to every named participant's score while setting
the matching contribution's `points` to `new_weight`.  An exception leaves
the persisted document unchanged (`save_data` is only reached at the end). -/
def updateExistingFileScores (d : Doc) (now : String)
    (nicknames : List String) (file_name : String) (new_weight : ℤ) :
    Except PyErr Doc :=
  let old_weight : ℚ :=
    match d.processed_files.lookup file_name with
    | some fr => fr.weight.getD 1
    | none => 1
  let diff := (new_weight : ℚ) - old_weight
  let pf := setKey d.processed_files file_name
    ⟨now, some nicknames.length, some ((new_weight : ℚ)), none,
      some ((nicknames.length : ℚ) * (new_weight : ℚ)), none, none, none⟩
  match existingLoop file_name now new_weight diff d.records nicknames with
  | .error e => .error e
  | .ok recs =>
    .ok { d with records := recs, processed_files := pf, last_updated := now }

/-- The source loop of `merge_nicknames` (lines 583-599): skip the target and
missing sources; otherwise add the source's score, extend the target's files
and delete the source key. -/
def mergeStep (target : String) : RecMap → List String → RecMap
  | m, [] => m
  | m, s :: rest =>
    if s = target then mergeStep target m rest
    else
      match m.lookup s with
      | none => mergeStep target m rest
      | some src =>
        mergeStep target
          (delKey
            (updFirst m target
              (fun r => ⟨r.score + src.score, r.files ++ src.files⟩)) s)
          rest

/-- `DataManager.merge_nicknames` (lines 553-603).  Empty sources or an
empty target return `False` before the document is even loaded.  Otherwise
the function reads `data["records"]`: on a document without the legacy
`records` key this raises `KeyError`.  A target that is absent from the map
and not among the sources returns `False` with the document unchanged. -/
def mergeNicknames (d : Doc) (now : String) (sources : List String)
    (target : String) : Except PyErr (Doc × Bool) :=
  if sources = [] ∨ target = "" then .ok (d, false)
  else
    match d.records with
    | none => .error (.keyError "records")
    | some m =>
      if (m.lookup target).isSome then
        .ok ({ d with
               records := some (mergeStep target m sources)
               last_updated := now }, true)
      else if decide (target ∈ sources) then
        .ok ({ d with
               records := some (mergeStep target (m ++ [(target, ⟨0, []⟩)])
                 sources)
               last_updated := now }, true)
      else .ok (d, false)

/-- One leaderboard row (`data_manager.py` lines 304-308). -/
structure LBEntry where
  nickname : String
  score : ℚ
  participation_count : ℕ
deriving DecidableEq, Repr

/-- The unsorted leaderboard rows, one per participant in map order;
`participation_count` is the number of distinct file names in the
contribution history (`len(set(...))`, line 303). -/
def leaderboardEntries (m : RecMap) : List LBEntry :=
  m.map (fun e =>
    ⟨e.1, e.2.score, (dedupFirst (e.2.files.map (fun c => c.file_name))).length⟩)

/-- Comparison of `leaderboard.sort(key=lambda x: x["score"], reverse=True)`:
descending and stable, so a row `x` is inserted in front of the first `y`
whose score is not greater than `x`'s. -/
def lbLe (a b : LBEntry) : Bool := !(decide (a.score < b.score))

/-- `DataManager.get_leaderboard` (lines 282-312). -/
def getLeaderboard (d : Doc) (group_by : String) : List LBEntry :=
  sortBy lbLe (leaderboardEntries (chosenMap d group_by))

/-- One row of `get_processed_files` (lines 525-535). -/
structure PFEntry where
  file_name : String
  processed_date : String
  nicknames_count : ℕ
  weight : ℚ
  base_score : ℚ
  total_points : ℚ
  reward_count : ℤ
  reward_multiplier : ℚ
  rewarded_users : List String
deriving DecidableEq, Repr

/-- Build one `get_processed_files` row: `info["nicknames_count"]` is a bare
subscript (line 528) and raises `KeyError` when absent; every other field is
read with a back-compat default (lines 529-534). -/
def pfEntryOf (fn : String) (info : FileRec) : Except PyErr PFEntry :=
  match info.nicknames_count with
  | none => .error (.keyError "nicknames_count")
  | some c =>
    .ok ⟨fn, info.processed_date, c, info.weight.getD 1,
      info.base_score.getD 1, info.total_points.getD (c : ℚ),
      info.reward_count.getD 0, info.reward_multiplier.getD 1,
      info.rewarded_users.getD []⟩

def pfEntries : List (String × FileRec) → Except PyErr (List PFEntry)
  | [] => .ok []
  | (fn, info) :: rest =>
    match pfEntryOf fn info with
    | .error e => .error e
    | .ok x =>
      match pfEntries rest with
      | .error e => .error e
      | .ok xs => .ok (x :: xs)

/-- Comparison of `files_list.sort(key=..., reverse=True)` on
`processed_date` (line 538), descending and stable. -/
def pfLe (a b : PFEntry) : Bool := !(decide (a.processed_date < b.processed_date))

/-- `DataManager.get_processed_files` (lines 513-539). -/
def getProcessedFiles (d : Doc) : Except PyErr (List PFEntry) :=
  match pfEntries d.processed_files with
  | .error e => .error e
  | .ok xs => .ok (sortBy pfLe xs)

/-- `DataManager.export_user_data` (lines 357-369): the loaded document with
`exported_at` and `session_id` added, serialised to JSON (serialisation is
modelled as the identity on documents). -/
def exportUserData (d : Doc) (now sid : String) : Doc :=
  { d with exported_at := some now, session_id := some sid }

/-- `DataManager.import_data` (lines 443-475) applied to an already parsed
document: it requires the top-level keys `records`, `processed_files`,
`last_updated` and `total_files_processed` (lines 459-462); `processed_files`
and `last_updated` are structurally always present, while `records` and
`total_files_processed` may be absent.  On failure the raised `ValueError` is
caught and `False` is returned with the current document untouched; on
success the imported document is saved. -/
def importData (cur imported : Doc) (now : String) : Doc × Bool :=
  if imported.records.isSome ∧ imported.total_files_processed.isSome then
    ({ imported with last_updated := now }, true)
  else (cur, false)

/-- Sum of the `points` fields over a contribution history. -/
def contribSum (files : List Contribution) : ℚ :=
  (files.map (fun c => c.points)).sum

/-- Score conservation for one participant record:
`score == sum(points over files)`. -/
def recordConserves (r : Participant) : Prop := r.score = contribSum r.files

/-- Score conservation for every record of a participant map. -/
def mapConserves (m : RecMap) : Prop := ∀ e ∈ m, recordConserves e.2

/-- Score conservation for a whole document: both participant maps conserve
scores, and the legacy `records` key is (still) absent. -/
def docConserves (d : Doc) : Prop :=
  d.records = none ∧ mapConserves d.records_by_nickname ∧
    mapConserves d.records_by_name

/-- Documents reachable from a fresh session document through the mutating
ledger operations, with arbitrary arguments.  Only successful (`.ok`) calls
change the persisted document: an operation that raises never reaches
`save_data`, so the stored document is the previous one. -/
inductive Reach : Doc → Prop where
  | init (now : String) : Reach (initDoc now)
  | update (d : Doc) (now : String) (nicknames times : List String)
      (file_name : String) (weight : Sum ℤ (List ℤ)) (base_score : ℚ)
      (reward_count : ℤ) (reward_multiplier : ℚ) (group_by : String)
      (d2 : Doc) (r : ℕ) (hr : Reach d)
      (h : updateScoresWithRewards d now nicknames times file_name weight
        base_score reward_count reward_multiplier group_by = .ok (d2, r)) :
      Reach d2
  | updateExisting (d : Doc) (now : String) (nicknames : List String)
      (file_name : String) (new_weight : ℤ) (d2 : Doc) (hr : Reach d)
      (h : updateExistingFileScores d now nicknames file_name new_weight =
        .ok d2) : Reach d2
  | merge (d : Doc) (now : String) (sources : List String) (target : String)
      (d2 : Doc) (b : Bool) (hr : Reach d)
      (h : mergeNicknames d now sources target = .ok (d2, b)) : Reach d2

end DataManager

namespace ExcelProcessor

/-- `ExcelProcessor.NICKNAME_KEYWORDS` (`excel_processor.py` lines 15-17). -/
def NICKNAME_KEYWORDS : List String := ["昵称", "姓名"]

/-- Does `s` start with `pat`? -/
def startsWithCL : List Char → List Char → Bool
  | [], _ => true
  | _ :: _, [] => false
  | a :: as, b :: bs => (a == b) && startsWithCL as bs

/-- Does `pat` occur as a contiguous run inside `s`? -/
def infixCL (pat : List Char) : List Char → Bool
  | [] => pat.isEmpty
  | b :: bs => startsWithCL pat (b :: bs) || infixCL pat bs

/-- Python's `sub in s` substring test. -/
def strContains (sub s : String) : Bool := infixCL sub.data s.data

/-- A pandas cell value as the extraction code distinguishes them: a string,
a number, or a missing value (`NaN`/`None`, dropped by `dropna`). -/
inductive PVal where
  | vStr (s : String)
  | vNum (q : ℚ)
  | vNone
deriving DecidableEq, Repr

/-- Missing values, removed by `df[col].dropna()`. -/
def PVal.isNaN : PVal → Bool
  | .vNone => true
  | _ => false

/-- The text test of `find_nickname_column` line 58:
`isinstance(x, str) and len(str(x).strip()) > 0`. -/
def isTextVal : PVal → Bool
  | .vStr s => pyStrip s != ""
  | _ => false

/-- `df[first_col].dropna().head(10)` (line 56). -/
def sampleOf (vals : List PVal) : List PVal :=
  (vals.filter (fun v => !v.isNaN)).take 10

/-- `text_count` of line 58. -/
def textCountOf (sample : List PVal) : ℕ := (sample.filter isTextVal).length

/-- A pandas `DataFrame` as the column finder sees it: ordered columns, each
a (header name, values) pair. -/
structure DFrame where
  cols : List (String × List PVal)
deriving Repr

/-- Exact-match pass of `find_nickname_column` (lines 41-44): keyword-major
scan for `keyword == str(col).strip()`. -/
def exactPass (names : List String) : Option String :=
  NICKNAME_KEYWORDS.findSome? (fun kw => names.find? (fun c => pyStrip c == kw))

/-- Substring pass of `find_nickname_column` (lines 47-50):
`keyword in str(col)`. -/
def substrPass (names : List String) : Option String :=
  NICKNAME_KEYWORDS.findSome? (fun kw => names.find? (fun c => strContains kw c))

/-- `ExcelProcessor.find_nickname_column` (lines 28-62): exact keyword match,
then substring match, then the first-column fallback accepting the column
only when strictly more than 70% of the first 10 non-missing values are
non-blank strings (line 59: `text_count / len(sample_data) > 0.7`). -/
def find_nickname_column (df : DFrame) : Option String :=
  let names := df.cols.map Prod.fst
  match exactPass names with
  | some c => some c
  | none =>
    match substrPass names with
    | some c => some c
    | none =>
      match df.cols with
      | [] => none
      | (c0, vals) :: _ =>
        let sample := sampleOf vals
        if 0 < sample.length then
          if ((textCountOf sample : ℚ) / (sample.length : ℚ)) > 7 / 10 then
            some c0
          else none
        else none

/-- The CJK ranges that `clean_nickname`'s regex keeps explicitly
(`一-鿿` and `㐀-䶿`, line 107). -/
def isCJK (c : Char) : Bool :=
  (0x4e00 ≤ c.toNat && c.toNat ≤ 0x9fff) ||
  (0x3400 ≤ c.toNat && c.toNat ≤ 0x4dbf)

/-- Characters kept by the substitution
`re.sub(r'[^\w一-鿿㐀-䶿\s]', '', ...)` (line 107); the
Unicode `\w` class is modelled on its ASCII subset (alphanumerics and
underscore) plus the CJK ranges the pattern lists, `\s` as whitespace. -/
def keepChar (c : Char) : Bool :=
  c.isAlphanum || c == '_' || c.isWhitespace || isCJK c

/-- Split a character list at whitespace into the non-empty runs between
whitespace, accumulating the current (reversed) run. -/
def wsTokensGo : List Char → List Char → List (List Char)
  | acc, [] => if acc.isEmpty then [] else [acc.reverse]
  | acc, c :: cs =>
    if c.isWhitespace then
      if acc.isEmpty then wsTokensGo [] cs else acc.reverse :: wsTokensGo [] cs
    else wsTokensGo (c :: acc) cs

/-- Join character runs with single spaces. -/
def joinSpace : List (List Char) → List Char
  | [] => []
  | [t] => t
  | t :: u :: rest => t ++ ' ' :: joinSpace (u :: rest)

/-- `re.sub(r'\s+', ' ', s).strip()` (line 110): collapse whitespace runs to
single spaces and trim the ends, i.e. join the whitespace-separated runs of
`s` with single spaces. -/
def collapseWs (s : String) : String :=
  String.mk (joinSpace (wsTokensGo [] s.data))

/-- `ExcelProcessor.clean_nickname` on a present string (lines 103-112):
strip, drop characters outside the kept class, collapse whitespace. -/
def cleanStr (s : String) : String :=
  collapseWs (String.mk ((pyStrip s).data.filter keepChar))

/-- `ExcelProcessor.clean_nickname` (lines 90-112): `NaN`/`None` becomes
`""` (lines 100-101), a value stringifying to `s` is cleaned by
`cleanStr`. -/
def clean_nickname (raw : Option String) : String :=
  match raw with
  | none => ""
  | some s => cleanStr s

/-- An `openpyxl` cell as `count_images_in_excel` reads it: the stringified
value (`none` for an empty cell) and whether the cell carries a hyperlink. -/
structure Cell where
  val : Option String
  hyper : Bool
deriving DecidableEq, Repr

/-- A worksheet: the header row (at `header_row`) and the data rows below
it.  Cells beyond a row's stored width read as empty. -/
structure Sheet where
  headers : List (Option String)
  rows : List (List Cell)
deriving Repr

/-- `ws.cell(row, col)` on a data row, with 1-based column index. -/
def cellAt (row : List Cell) (idx1 : ℕ) : Cell := row.getD (idx1 - 1) ⟨none, false⟩

/-- Python truthiness of a header value (`if header:`). -/
def headerTruthy : Option String → Bool
  | none => false
  | some s => s != ""

/-- The nickname-column scan of `count_images_in_excel` (lines 155-163):
the first (1-based) column whose truthy header contains a nickname
keyword. -/
def nicknameColIdxGo : ℕ → List (Option String) → Option ℕ
  | _, [] => none
  | i, h :: rest =>
    if headerTruthy h &&
        NICKNAME_KEYWORDS.any (fun kw => strContains kw (h.getD "")) then
      some i
    else nicknameColIdxGo (i + 1) rest

def nicknameColIdx (headers : List (Option String)) : Option ℕ :=
  nicknameColIdxGo 1 headers

/-- `re.search(r'图片\d+', s)` on the character list: some occurrence of
`图片` immediately followed by a digit. -/
def hasImgNum : List Char → Bool
  | a :: b :: c :: rest =>
    ((a == '图') && (b == '片') && c.isDigit) || hasImgNum (b :: c :: rest)
  | _ => false

/-- The image-column scan of `count_images_in_excel` (lines 173-183): truthy
headers containing `图片`, not containing `订正`, whose stripped text matches
`图片\d+`. -/
def imageColsGo : ℕ → List (Option String) → List ℕ
  | _, [] => []
  | i, h :: rest =>
    if headerTruthy h && strContains "图片" (h.getD "") &&
        !(strContains "订正" (h.getD "")) &&
        hasImgNum ((pyStrip (h.getD "")).data) then
      i :: imageColsGo (i + 1) rest
    else imageColsGo (i + 1) rest

def imageColsOf (headers : List (Option String)) : List ℕ :=
  imageColsGo 1 headers

/-- `nickname_image_count[nickname] = max(old, count)` merge of lines
209-213: keep the maximum for an existing key, append a new key. -/
def addMax (m : List (String × ℤ)) (k : String) (v : ℤ) : List (String × ℤ) :=
  match m.lookup k with
  | some _ => PyDict.updFirst m k (fun o => max o v)
  | none => m ++ [(k, v)]

/-- Hyperlinked image cells of one row (lines 202-207). -/
def countRow (imgCols : List ℕ) (row : List Cell) : ℤ :=
  ((imgCols.filter (fun c => (cellAt row c).hyper)).length : ℤ)

/-- Python truthiness of a cell value (`if not nickname_raw: continue`). -/
def cellTruthy (c : Cell) : Bool :=
  match c.val with
  | none => false
  | some s => s != ""

/-- The row loop of `count_images_in_excel` (lines 187-213). -/
def countLoop (ncol : ℕ) (imgCols : List ℕ) :
    List (String × ℤ) → List (List Cell) → List (String × ℤ)
  | m, [] => m
  | m, row :: rest =>
    let cell := cellAt row ncol
    if !(cellTruthy cell) then countLoop ncol imgCols m rest
    else
      let nickname := clean_nickname cell.val
      if nickname == "" then countLoop ncol imgCols m rest
      else countLoop ncol imgCols (addMax m nickname (countRow imgCols row)) rest

/-- `ExcelProcessor.count_images_in_excel` (lines 114-233) as a pure map
from the worksheet to the per-nickname image counts.  A worksheet without a
keyword-matched nickname column yields `{}` (lines 167-170); the `except`
branch returning `{}` on any parse error and the debug output are
I/O-only and not modelled. -/
def count_images_in_excel (s : Sheet) : List (String × ℤ) :=
  match nicknameColIdx s.headers with
  | none => []
  | some ncol => countLoop ncol (imageColsOf s.headers) [] s.rows

/-- `str(time_val) if time_val is not None else ""` (line 310): a present
value is represented by its `str()` image. -/
def pyTimeStr : Option String → String
  | none => ""
  | some s => s

/-- A raw extraction row: the nickname cell (`none` for `NaN`/`None`) and
the time cell (`none` for Python `None`, otherwise its `str()` image). -/
abbrev RawRow := Option String × Option String

/-- The clean-and-dedup loop of `extract_nicknames_and_times_from_file`
(lines 300-314): keep the first row of each non-empty cleaned nickname, pair
it with that row's stringified time and with
`nickname_image_count.get(clean_name, 1)`. -/
def extractLoop (imgMap : List (String × ℤ)) :
    List String → List RawRow → List String × List String × List ℤ
  | _, [] => ([], [], [])
  | seen, (n, t) :: rest =>
    let c := clean_nickname n
    if decide (c ≠ "") && decide (c ∉ seen) && decide (0 < c.length) then
      let r := extractLoop imgMap (c :: seen) rest
      (c :: r.1, pyTimeStr t :: r.2.1, ((imgMap.lookup c).getD 1) :: r.2.2)
    else extractLoop imgMap seen rest

/-- The cleaned nickname of row `i` (out-of-range indices clean to `""`). -/
def cleanAt (pairs : List RawRow) (i : ℕ) : String :=
  clean_nickname (pairs.getD i (none, none)).1

/-- Reference predicate: row `i` is kept when its cleaned nickname is
non-empty, not among `seen`, and no earlier row cleans to the same value. -/
def keptP (seen : List String) (pairs : List RawRow) (i : ℕ) : Bool :=
  decide (cleanAt pairs i ≠ "") && decide (cleanAt pairs i ∉ seen) &&
    (List.range i).all (fun j => decide (cleanAt pairs j ≠ cleanAt pairs i))

/-- Indices of the kept rows, in file order. -/
def keptIdxSeen (seen : List String) (pairs : List RawRow) : List ℕ :=
  (List.range pairs.length).filter (keptP seen pairs)

def keptIdx (pairs : List RawRow) : List ℕ := keptIdxSeen [] pairs

/-- No header matches an identifier keyword exactly (after stripping) or as
a substring: the hypothesis under which `find_nickname_column` reaches its
first-column fallback. -/
def noKeywordMatch (names : List String) : Bool :=
  names.all (fun c => NICKNAME_KEYWORDS.all (fun kw =>
    !(pyStrip c == kw) && !(strContains kw c)))

end ExcelProcessor

namespace Claims

open PyDict PySort DataManager ExcelProcessor

/-- The document on disk after an operation: the saved document on success,
the unchanged previous document when the operation raised (`save_data` is
never reached on the exception paths). -/
def persistedAfter {α : Type} (d : Doc) : Except PyErr (Doc × α) → Doc
  | .ok r => r.1
  | .error _ => d

end Claims

namespace PyDict

theorem lookup_updFirst_self {β : Type} (m : List (String × β)) (k : String)
    (f : β → β) : (updFirst m k f).lookup k = (m.lookup k).map f := by
  induction m with
  | nil => simp [updFirst]
  | cons hd tl ih =>
    obtain ⟨a, v⟩ := hd
    by_cases h : a = k
    · subst h
      simp [updFirst, List.lookup]
    · have hba : (k == a) = false := beq_false_of_ne (Ne.symm h)
      simp [updFirst, h, List.lookup, hba, ih]

theorem lookup_updFirst_ne {β : Type} (m : List (String × β)) (k x : String)
    (f : β → β) (hx : x ≠ k) : (updFirst m k f).lookup x = m.lookup x := by
  induction m with
  | nil => simp [updFirst]
  | cons hd tl ih =>
    obtain ⟨a, v⟩ := hd
    by_cases h : a = k
    · subst h
      have hba : (x == a) = false := beq_false_of_ne hx
      simp [updFirst, List.lookup, hba]
    · simp [updFirst, h, List.lookup, ih]

theorem mem_updFirst {β : Type} (m : List (String × β)) (k : String)
    (f : β → β) {e : String × β} (he : e ∈ updFirst m k f) :
    e ∈ m ∨ ∃ v, (k, v) ∈ m ∧ e = (k, f v) := by
  induction m with
  | nil => simp [updFirst] at he
  | cons hd tl ih =>
    obtain ⟨a, v⟩ := hd
    by_cases h : a = k
    · subst h
      simp only [updFirst, if_pos rfl] at he
      rcases List.mem_cons.mp he with he1 | he1
      · exact Or.inr ⟨v, List.mem_cons_self _ _, he1⟩
      · exact Or.inl (List.mem_cons_of_mem _ he1)
    · simp only [updFirst, if_neg h] at he
      rcases List.mem_cons.mp he with he1 | he1
      · exact Or.inl (he1 ▸ List.mem_cons_self _ _)
      · rcases ih he1 with h1 | ⟨w, hw, he2⟩
        · exact Or.inl (List.mem_cons_of_mem _ h1)
        · exact Or.inr ⟨w, List.mem_cons_of_mem _ hw, he2⟩

end PyDict

namespace PySort

variable {α : Type}

theorem insertBy_perm (le : α → α → Bool) (x : α) (l : List α) :
    List.Perm (insertBy le x l) (x :: l) := by
  induction l with
  | nil => simp [insertBy]
  | cons y ys ih =>
    by_cases h : le x y = true
    · simp [insertBy, h]
    · simp only [insertBy, if_neg h]
      exact ((ih.cons y).trans (List.Perm.swap x y ys))

theorem sortBy_perm (le : α → α → Bool) (l : List α) :
    List.Perm (sortBy le l) l := by
  induction l with
  | nil => simp [sortBy]
  | cons x xs ih => exact (insertBy_perm le x (sortBy le xs)).trans (ih.cons x)

theorem mem_insertBy (le : α → α → Bool) (x : α) (l : List α) (a : α) :
    a ∈ insertBy le x l ↔ a = x ∨ a ∈ l := by
  rw [(insertBy_perm le x l).mem_iff, List.mem_cons]

theorem pairwise_insertBy (le : α → α → Bool)
    (htrans : ∀ a b c, le a b = true → le b c = true → le a c = true)
    (htotal : ∀ a b, le a b = true ∨ le b a = true) (x : α) (l : List α)
    (hl : l.Pairwise (fun a b => le a b = true)) :
    (insertBy le x l).Pairwise (fun a b => le a b = true) := by
  induction l with
  | nil => simp [insertBy]
  | cons y ys ih =>
    by_cases h : le x y = true
    · simp only [insertBy, if_pos h]
      refine List.Pairwise.cons ?_ hl
      intro z hz
      rcases List.mem_cons.mp hz with hz | hz
      · exact hz ▸ h
      · exact htrans x y z h (List.rel_of_pairwise_cons hl hz)
    · simp only [insertBy, if_neg h]
      have hyx : le y x = true := by
        rcases htotal x y with h1 | h1
        · exact absurd h1 h
        · exact h1
      refine List.Pairwise.cons ?_ (ih (List.Pairwise.of_cons hl))
      intro z hz
      rcases (mem_insertBy le x ys z).mp hz with hz | hz
      · exact hz ▸ hyx
      · exact List.rel_of_pairwise_cons hl hz

theorem pairwise_sortBy (le : α → α → Bool)
    (htrans : ∀ a b c, le a b = true → le b c = true → le a c = true)
    (htotal : ∀ a b, le a b = true ∨ le b a = true) (l : List α) :
    (sortBy le l).Pairwise (fun a b => le a b = true) := by
  induction l with
  | nil => simp [sortBy]
  | cons x xs ih => exact pairwise_insertBy le htrans htotal x (sortBy le xs) ih

/-- Decomposition of an insertion: the skipped prefix consists of elements
`y` with `le x y = false`. -/
theorem insertBy_decomp (le : α → α → Bool) (x : α) (l : List α) :
    ∃ l1 l2, l = l1 ++ l2 ∧ insertBy le x l = l1 ++ x :: l2 ∧
      ∀ y ∈ l1, le x y = false := by
  induction l with
  | nil => exact ⟨[], [], rfl, rfl, by simp⟩
  | cons y ys ih =>
    by_cases h : le x y = true
    · exact ⟨[], y :: ys, rfl, by simp [insertBy, h], by simp⟩
    · obtain ⟨l1, l2, hsplit, hins, hskip⟩ := ih
      refine ⟨y :: l1, l2, by simp [hsplit], by simp [insertBy, h, hins], ?_⟩
      intro z hz
      rcases List.mem_cons.mp hz with hz | hz
      · exact hz ▸ eq_false_of_ne_true h
      · exact hskip z hz

/-- Inserting an element preserves the filtered sublist of any class of
mutually `le`-comparable elements (the stability kernel). -/
theorem filter_insertBy (le : α → α → Bool) (p : α → Bool)
    (hcl : ∀ a b, p a = true → p b = true → le a b = true) (x : α)
    (l : List α) :
    (insertBy le x l).filter p =
      if p x then x :: l.filter p else l.filter p := by
  obtain ⟨l1, l2, hsplit, hins, hskip⟩ := insertBy_decomp le x l
  by_cases hx : p x = true
  · have h1 : l1.filter p = [] := by
      rw [List.filter_eq_nil_iff]
      intro y hy hpy
      exact absurd (hcl x y hx hpy) (by simp [hskip y hy])
    rw [hins, hsplit, if_pos hx]
    simp [List.filter_append, h1, hx]
  · rw [hins, hsplit, if_neg hx]
    simp [List.filter_append, List.filter_cons, eq_false_of_ne_true hx]

/-- Stability of `sortBy`: the subsequence of elements of any mutually
`le`-comparable class (for instance all elements with one given sort key) is
unchanged by sorting. -/
theorem filter_sortBy (le : α → α → Bool) (p : α → Bool)
    (hcl : ∀ a b, p a = true → p b = true → le a b = true) (l : List α) :
    (sortBy le l).filter p = l.filter p := by
  induction l with
  | nil => simp [sortBy]
  | cons x xs ih =>
    rw [sortBy, filter_insertBy le p hcl, List.filter_cons, ih]

end PySort

namespace ExcelProcessor

theorem bool_eq_of_iff {a b : Bool} (h : a = true ↔ b = true) : a = b :=
  Bool.eq_iff_iff.mpr h

theorem string_length_pos_iff (s : String) : 0 < s.length ↔ s ≠ "" := by
  rw [show s.length = s.data.length from rfl, List.length_pos, Ne, Ne,
    String.ext_iff]

theorem cleanAt_cons_zero (n t : Option String) (rest : List RawRow) :
    cleanAt ((n, t) :: rest) 0 = clean_nickname n := rfl

theorem cleanAt_cons_succ (n t : Option String) (rest : List RawRow) (j : ℕ) :
    cleanAt ((n, t) :: rest) (j + 1) = cleanAt rest j := by
  simp [cleanAt]

theorem keptP_iff (seen : List String) (pairs : List RawRow) (i : ℕ) :
    keptP seen pairs i = true ↔
      cleanAt pairs i ≠ "" ∧ cleanAt pairs i ∉ seen ∧
        ∀ j < i, cleanAt pairs j ≠ cleanAt pairs i := by
  simp [keptP, List.all_eq_true, List.mem_range, and_assoc]

theorem forall_lt_succ_split {P : ℕ → Prop} (j : ℕ) :
    (∀ i < j + 1, P i) ↔ P 0 ∧ ∀ i < j, P (i + 1) := by
  constructor
  · intro h
    exact ⟨h 0 (Nat.succ_pos j), fun i hi => h (i + 1) (Nat.succ_lt_succ hi)⟩
  · rintro ⟨h0, hs⟩ i hi
    cases i with
    | zero => exact h0
    | succ i2 => exact hs i2 (Nat.lt_of_succ_lt_succ hi)

theorem keptP_cons_zero (n t : Option String) (rest : List RawRow)
    (seen : List String) :
    keptP seen ((n, t) :: rest) 0 =
      (decide (clean_nickname n ≠ "") && decide (clean_nickname n ∉ seen)) := by
  apply bool_eq_of_iff
  rw [keptP_iff]
  simp [cleanAt_cons_zero, and_assoc]

theorem keptP_cons_succ_kept (n t : Option String) (rest : List RawRow)
    (seen : List String) (j : ℕ) :
    keptP seen ((n, t) :: rest) (j + 1) =
      keptP (clean_nickname n :: seen) rest j := by
  apply bool_eq_of_iff
  rw [keptP_iff, keptP_iff, forall_lt_succ_split]
  simp only [cleanAt_cons_zero, cleanAt_cons_succ]
  constructor
  · rintro ⟨h1, h2, h3, h4⟩
    refine ⟨h1, ?_, h4⟩
    simp only [List.mem_cons, not_or]
    exact ⟨fun he => h3 he.symm, h2⟩
  · rintro ⟨h1, h2, h4⟩
    simp only [List.mem_cons, not_or] at h2
    exact ⟨h1, h2.2, fun he => h2.1 he.symm, h4⟩

theorem keptP_cons_succ_dropped (n t : Option String) (rest : List RawRow)
    (seen : List String) (j : ℕ)
    (hd : clean_nickname n = "" ∨ clean_nickname n ∈ seen) :
    keptP seen ((n, t) :: rest) (j + 1) = keptP seen rest j := by
  apply bool_eq_of_iff
  rw [keptP_iff, keptP_iff, forall_lt_succ_split]
  simp only [cleanAt_cons_zero, cleanAt_cons_succ]
  constructor
  · rintro ⟨h1, h2, _, h4⟩
    exact ⟨h1, h2, h4⟩
  · rintro ⟨h1, h2, h4⟩
    refine ⟨h1, h2, ?_, h4⟩
    rcases hd with hd | hd
    · rw [hd]
      exact fun he => h1 he.symm
    · exact fun he => h2 (he ▸ hd)

theorem keptIdxSeen_nil (seen : List String) : keptIdxSeen seen [] = [] := by
  simp [keptIdxSeen]

theorem keptIdxSeen_cons (seen : List String) (n t : Option String)
    (rest : List RawRow) :
    keptIdxSeen seen ((n, t) :: rest) =
      (if keptP seen ((n, t) :: rest) 0 = true then [0] else []) ++
        ((List.range rest.length).filter
          (keptP seen ((n, t) :: rest) ∘ Nat.succ)).map Nat.succ := by
  unfold keptIdxSeen
  rw [List.length_cons, List.range_succ_eq_map, List.filter_cons,
    List.filter_map]
  by_cases h0 : keptP seen ((n, t) :: rest) 0 = true <;> simp [h0]

theorem extractLoop_eq_keptIdxSeen (imgMap : List (String × ℤ))
    (pairs : List RawRow) :
    ∀ seen : List String,
      extractLoop imgMap seen pairs =
        ((keptIdxSeen seen pairs).map (cleanAt pairs),
         (keptIdxSeen seen pairs).map
           (fun i => pyTimeStr (pairs.getD i (none, none)).2),
         (keptIdxSeen seen pairs).map
           (fun i => (imgMap.lookup (cleanAt pairs i)).getD 1)) := by
  induction pairs with
  | nil =>
    intro seen
    simp [extractLoop, keptIdxSeen_nil]
  | cons hd rest ih =>
    obtain ⟨n, t⟩ := hd
    intro seen
    rw [keptIdxSeen_cons]
    by_cases hcond : clean_nickname n ≠ "" ∧ clean_nickname n ∉ seen
    · have h0 : keptP seen ((n, t) :: rest) 0 = true := by
        rw [keptP_iff]
        refine ⟨?_, ?_, fun j hj => absurd hj (Nat.not_lt_zero j)⟩
        · rw [cleanAt_cons_zero]
          exact hcond.1
        · rw [cleanAt_cons_zero]
          exact hcond.2
      have hcond2 : (decide (clean_nickname n ≠ "") &&
          decide (clean_nickname n ∉ seen) &&
          decide (0 < (clean_nickname n).length)) = true := by
        simp [hcond.1, hcond.2, (string_length_pos_iff _).mpr hcond.1]
      have hfil : (List.range rest.length).filter
            (keptP seen ((n, t) :: rest) ∘ Nat.succ) =
          keptIdxSeen (clean_nickname n :: seen) rest := by
        unfold keptIdxSeen
        apply List.filter_congr
        intro j _
        exact keptP_cons_succ_kept n t rest seen j
      have hstep : extractLoop imgMap seen ((n, t) :: rest) =
          (clean_nickname n ::
             (extractLoop imgMap (clean_nickname n :: seen) rest).1,
           pyTimeStr t ::
             (extractLoop imgMap (clean_nickname n :: seen) rest).2.1,
           ((imgMap.lookup (clean_nickname n)).getD 1) ::
             (extractLoop imgMap (clean_nickname n :: seen) rest).2.2) := by
        simp only [extractLoop]
        rw [hcond2]
        simp
      rw [hstep, ih (clean_nickname n :: seen), if_pos h0, hfil]
      refine Prod.ext ?_ (Prod.ext ?_ ?_) <;>
        simp only [List.singleton_append, List.map_cons, List.map_map] <;>
        refine congrArg₂ _ rfl (List.map_congr_left ?_) <;>
        intro j _
      · exact (cleanAt_cons_succ n t rest j).symm ▸ rfl
      · rfl
      · exact congrArg (fun x => (imgMap.lookup x).getD 1)
          (cleanAt_cons_succ n t rest j).symm
    · have hd2 : clean_nickname n = "" ∨ clean_nickname n ∈ seen := by
        by_cases he : clean_nickname n = ""
        · exact Or.inl he
        · exact Or.inr (by
            rcases not_and_or.mp hcond with hc | hc
            · exact absurd he (by simpa using hc)
            · simpa using hc)
      have h0 : ¬(keptP seen ((n, t) :: rest) 0 = true) := by
        rw [keptP_iff]
        rintro ⟨h1, h2, _⟩
        rw [cleanAt_cons_zero] at h1 h2
        rcases hd2 with hd3 | hd3
        · exact h1 hd3
        · exact h2 hd3
      have hcond2 : (decide (clean_nickname n ≠ "") &&
          decide (clean_nickname n ∉ seen) &&
          decide (0 < (clean_nickname n).length)) = false := by
        rcases hd2 with hd3 | hd3 <;> simp [hd3]
      have hfil : (List.range rest.length).filter
            (keptP seen ((n, t) :: rest) ∘ Nat.succ) =
          keptIdxSeen seen rest := by
        unfold keptIdxSeen
        apply List.filter_congr
        intro j _
        exact keptP_cons_succ_dropped n t rest seen j hd2
      have hstep : extractLoop imgMap seen ((n, t) :: rest) =
          extractLoop imgMap seen rest := by
        simp only [extractLoop]
        rw [hcond2]
        simp
      rw [hstep, ih seen, if_neg h0, hfil]
      refine Prod.ext ?_ (Prod.ext ?_ ?_) <;>
        simp only [List.nil_append, List.map_map] <;>
        refine List.map_congr_left ?_ <;> intro j _
      · exact (cleanAt_cons_succ n t rest j).symm ▸ rfl
      · rfl
      · exact congrArg (fun x => (imgMap.lookup x).getD 1)
          (cleanAt_cons_succ n t rest j).symm

theorem keptIdxSeen_clean_pairwise (seen : List String)
    (pairs : List RawRow) :
    (keptIdxSeen seen pairs).Pairwise
      (fun a b => cleanAt pairs a ≠ cleanAt pairs b) := by
  have h1 : (keptIdxSeen seen pairs).Pairwise (· < ·) :=
    List.Pairwise.sublist (List.filter_sublist _)
      (List.pairwise_lt_range pairs.length)
  refine List.Pairwise.imp_of_mem ?_ h1
  intro a b ha hb hlt
  have hb2 := (List.mem_filter.mp hb).2
  rw [keptP_iff] at hb2
  exact hb2.2.2 a hlt

theorem extractLoop_nodup (imgMap : List (String × ℤ))
    (pairs : List RawRow) (seen : List String) :
    (extractLoop imgMap seen pairs).1.Nodup := by
  rw [extractLoop_eq_keptIdxSeen imgMap pairs seen]
  exact List.pairwise_map.mpr (keptIdxSeen_clean_pairwise seen pairs)

theorem extractLoop_lengths (imgMap : List (String × ℤ))
    (pairs : List RawRow) (seen : List String) :
    (extractLoop imgMap seen pairs).2.1.length =
        (extractLoop imgMap seen pairs).1.length ∧
      (extractLoop imgMap seen pairs).2.2.length =
        (extractLoop imgMap seen pairs).1.length := by
  rw [extractLoop_eq_keptIdxSeen imgMap pairs seen]
  simp

theorem extract_weight_getD (imgMap : List (String × ℤ))
    (pairs : List RawRow) : ∀ (seen : List String) (i : ℕ),
    i < (extractLoop imgMap seen pairs).1.length →
      (extractLoop imgMap seen pairs).2.2.getD i 0 =
        (imgMap.lookup ((extractLoop imgMap seen pairs).1.getD i "")).getD 1 := by
  induction pairs with
  | nil =>
    intro seen i h
    simp [extractLoop] at h
  | cons hd rest ih =>
    obtain ⟨n, t⟩ := hd
    intro seen i h
    by_cases hc : (decide (clean_nickname n ≠ "") &&
        decide (clean_nickname n ∉ seen) &&
        decide (0 < (clean_nickname n).length)) = true
    · have hstep : extractLoop imgMap seen ((n, t) :: rest) =
          (clean_nickname n ::
             (extractLoop imgMap (clean_nickname n :: seen) rest).1,
           pyTimeStr t ::
             (extractLoop imgMap (clean_nickname n :: seen) rest).2.1,
           ((imgMap.lookup (clean_nickname n)).getD 1) ::
             (extractLoop imgMap (clean_nickname n :: seen) rest).2.2) := by
        simp only [extractLoop]
        rw [hc]
        simp
      rw [hstep] at h ⊢
      cases i with
      | zero => simp
      | succ j =>
        simp only [List.getD_cons_succ]
        exact ih (clean_nickname n :: seen) j (by simpa using h)
    · have hc2 : (decide (clean_nickname n ≠ "") &&
          decide (clean_nickname n ∉ seen) &&
          decide (0 < (clean_nickname n).length)) = false :=
        eq_false_of_ne_true hc
      have hstep : extractLoop imgMap seen ((n, t) :: rest) =
          extractLoop imgMap seen rest := by
        simp only [extractLoop]
        rw [hc2]
        simp
      rw [hstep] at h ⊢
      exact ih seen i h

theorem noKeywordMatch_passes (names : List String)
    (h : noKeywordMatch names = true) :
    exactPass names = none ∧ substrPass names = none := by
  rw [noKeywordMatch, List.all_eq_true] at h
  constructor
  · rw [exactPass, List.findSome?_eq_none_iff]
    intro kw hkw
    rw [List.find?_eq_none]
    intro c hc
    have h2 := h c hc
    rw [List.all_eq_true] at h2
    have h3 := h2 kw hkw
    simp only [Bool.and_eq_true, Bool.not_eq_true'] at h3
    simp [h3.1]
  · rw [substrPass, List.findSome?_eq_none_iff]
    intro kw hkw
    rw [List.find?_eq_none]
    intro c hc
    have h2 := h c hc
    rw [List.all_eq_true] at h2
    have h3 := h2 kw hkw
    simp only [Bool.and_eq_true, Bool.not_eq_true'] at h3
    simp [h3.2]

/-- With no keyword match and a non-empty column list,
`find_nickname_column` reduces to the fallback test on the first column. -/
theorem find_nickname_column_fallback_eq (df : DFrame) (c0 : String)
    (vals : List PVal) (rest : List (String × List PVal))
    (hcols : df.cols = (c0, vals) :: rest)
    (hkw : noKeywordMatch (df.cols.map Prod.fst) = true) :
    find_nickname_column df =
      (if 0 < (sampleOf vals).length ∧
          ((textCountOf (sampleOf vals) : ℚ) / ((sampleOf vals).length : ℚ) >
            7 / 10)
       then some c0 else none) := by
  obtain ⟨hex, hsub⟩ := noKeywordMatch_passes _ hkw
  rw [find_nickname_column]
  rw [hex, hsub, hcols]
  by_cases h1 : 0 < (sampleOf vals).length
  · by_cases h2 : (textCountOf (sampleOf vals) : ℚ) /
        ((sampleOf vals).length : ℚ) > 7 / 10
    · simp [h1, h2]
    · simp [h1, h2]
  · simp [h1]

end ExcelProcessor

namespace DataManager

open PyDict

theorem contribSum_append (l : List Contribution) (c : Contribution) :
    contribSum (l ++ [c]) = contribSum l + c.points := by
  simp [contribSum]

theorem contribSum_singleton (c : Contribution) : contribSum [c] = c.points := by
  simp [contribSum]

theorem mapConserves_nil : mapConserves [] := by
  intro e he
  simp at he

/-- Crediting one contribution through `updRecord` preserves score
conservation on every entry of the map. -/
theorem mapConserves_updRecord (m : RecMap) (k : String) (c : Contribution)
    (hm : mapConserves m) : mapConserves (updRecord m k c) := by
  intro e he
  unfold updRecord at he
  by_cases hl : (m.lookup k).isSome
  · rw [if_pos hl] at he
    rcases mem_updFirst m k _ he with h1 | ⟨v, hv, he2⟩
    · exact hm e h1
    · subst he2
      have hrec := hm (k, v) hv
      show v.score + c.points = contribSum (v.files ++ [c])
      rw [contribSum_append, ← hrec]
  · rw [if_neg hl] at he
    rcases List.mem_append.mp he with h1 | h1
    · exact hm e h1
    · have h2 : e = (k, ⟨c.points, [c]⟩) := by simpa using h1
      subst h2
      show c.points = contribSum [c]
      rw [contribSum_singleton]

/-- The scoring loop preserves score conservation. -/
theorem mapConserves_scoreLoop (rus : List String) (now fn : String)
    (base mult : ℚ) (rows : List (String × ℤ)) :
    ∀ m : RecMap, mapConserves m →
      mapConserves (scoreLoop rus now fn base mult m rows) := by
  induction rows with
  | nil =>
    intro m hm
    simpa [scoreLoop] using hm
  | cons hd rest ih =>
    obtain ⟨n, uw⟩ := hd
    intro m hm
    by_cases hs : pyStrip n ≠ ""
    · rw [scoreLoop, if_pos hs]
      exact ih _ (mapConserves_updRecord m (pyStrip n) _ hm)
    · rw [scoreLoop, if_neg hs]
      exact ih m hm

theorem docConserves_init (now : String) : docConserves (initDoc now) :=
  ⟨rfl, mapConserves_nil, mapConserves_nil⟩

/-- The participant-map fields of the document saved by `updateScoresGo`:
the legacy `records` key is untouched and exactly the `group_by`-selected
map goes through the scoring loop. -/
theorem updateScoresGo_fields (d : Doc) (now : String)
    (nicknames times : List String) (file_name : String) (weights : List ℤ)
    (base_score : ℚ) (reward_count : ℤ) (reward_multiplier : ℚ)
    (group_by : String) :
    (updateScoresGo d now nicknames times file_name weights base_score
      reward_count reward_multiplier group_by).1.records = d.records ∧
    (updateScoresGo d now nicknames times file_name weights base_score
      reward_count reward_multiplier group_by).1.records_by_nickname =
      (if group_by = "name" then d.records_by_nickname
       else scoreLoop (rewardUsersOf nicknames times reward_count) now
         file_name base_score reward_multiplier d.records_by_nickname
         (nicknames.zip weights)) ∧
    (updateScoresGo d now nicknames times file_name weights base_score
      reward_count reward_multiplier group_by).1.records_by_name =
      (if group_by = "name" then
         scoreLoop (rewardUsersOf nicknames times reward_count) now
           file_name base_score reward_multiplier d.records_by_name
           (nicknames.zip weights)
       else d.records_by_name) := by
  unfold updateScoresGo chosenMap
  by_cases hg : group_by = "name"
  · simp only [hg, if_true, if_pos rfl]
    refine ⟨?_, ?_, ?_⟩ <;> (split <;> rfl)
  · simp only [hg, if_false, if_neg hg]
    refine ⟨?_, ?_, ?_⟩ <;> (split <;> rfl)

/-- A successful `update_scores_with_rewards` call preserves the
conservation invariant. -/
theorem update_ok_conserves (d : Doc) (now : String)
    (nicknames times : List String) (file_name : String)
    (weight : Sum ℤ (List ℤ)) (base_score : ℚ) (reward_count : ℤ)
    (reward_multiplier : ℚ) (group_by : String) (d2 : Doc) (r : ℕ)
    (h : updateScoresWithRewards d now nicknames times file_name weight
      base_score reward_count reward_multiplier group_by = .ok (d2, r))
    (hd : docConserves d) : docConserves d2 := by
  obtain ⟨h0, h1, h2⟩ := hd
  have hgo : ∀ ws : List ℤ,
      docConserves (updateScoresGo d now nicknames times file_name ws
        base_score reward_count reward_multiplier group_by).1 := by
    intro ws
    obtain ⟨f0, f1, f2⟩ := updateScoresGo_fields d now nicknames times
      file_name ws base_score reward_count reward_multiplier group_by
    refine ⟨f0.trans h0, ?_, ?_⟩
    · rw [f1]
      split
      · exact h1
      · exact mapConserves_scoreLoop _ now file_name base_score
          reward_multiplier _ _ h1
    · rw [f2]
      split
      · exact mapConserves_scoreLoop _ now file_name base_score
          reward_multiplier _ _ h2
      · exact h2
  rcases weight with w | ws
  · rw [updateScoresWithRewards] at h
    have hd2 : d2 = (updateScoresGo d now nicknames times file_name
        (List.replicate nicknames.length w) base_score reward_count
        reward_multiplier group_by).1 := by
      have h3 := (Except.ok.injEq _ _).mp h
      rw [h3]
    rw [hd2]
    exact hgo _
  · rw [updateScoresWithRewards] at h
    by_cases hlen : ws.length ≠ nicknames.length
    · rw [if_pos hlen] at h
      exact absurd h (by simp)
    · rw [if_neg hlen] at h
      have hd2 : d2 = (updateScoresGo d now nicknames times file_name ws
          base_score reward_count reward_multiplier group_by).1 := by
        have h3 := (Except.ok.injEq _ _).mp h
        rw [h3]
      rw [hd2]
      exact hgo _

/-- On a document without the legacy `records` key, the nickname loop of
`update_existing_file_scores` either raises or finishes without having
created the key. -/
theorem existingLoop_none (fn now : String) (nw : ℤ) (diff : ℚ)
    (ns : List String) : ∀ recs2 : Option RecMap,
      existingLoop fn now nw diff none ns = .ok recs2 → recs2 = none := by
  induction ns with
  | nil =>
    intro recs2 h
    rw [existingLoop] at h
    simpa using h.symm
  | cons n rest ih =>
    intro recs2 h
    by_cases hs : pyStrip n ≠ ""
    · rw [existingLoop, if_pos hs] at h
      exact absurd h (by simp)
    · rw [existingLoop, if_neg hs] at h
      exact ih recs2 h

/-- A successful `update_existing_file_scores` call on a current-schema
document touches neither participant map and creates no `records` key. -/
theorem existing_ok_fields (d : Doc) (now : String) (nicknames : List String)
    (file_name : String) (new_weight : ℤ) (d2 : Doc)
    (h : updateExistingFileScores d now nicknames file_name new_weight =
      .ok d2) (hrec : d.records = none) :
    d2.records = none ∧
      d2.records_by_nickname = d.records_by_nickname ∧
      d2.records_by_name = d.records_by_name := by
  unfold updateExistingFileScores at h
  rw [hrec] at h
  simp only [] at h
  cases hcase : existingLoop file_name now new_weight
      ((new_weight : ℚ) -
        (match d.processed_files.lookup file_name with
         | some fr => fr.weight.getD 1
         | none => 1)) none nicknames with
  | error e =>
    rw [hcase] at h
    exact absurd h (by simp)
  | ok recs =>
    rw [hcase] at h
    have hnone := existingLoop_none _ _ _ _ nicknames recs hcase
    have hd2 := ((Except.ok.injEq _ _).mp h).symm
    subst hd2
    exact ⟨hnone, rfl, rfl⟩

/-- A successful `merge_nicknames` call on a current-schema document is one
of the early `False` returns, which leave the document unchanged. -/
theorem merge_ok_unchanged (d : Doc) (now : String) (sources : List String)
    (target : String) (d2 : Doc) (b : Bool)
    (h : mergeNicknames d now sources target = .ok (d2, b))
    (hrec : d.records = none) : d2 = d := by
  unfold mergeNicknames at h
  by_cases hc : sources = [] ∨ target = ""
  · rw [if_pos hc] at h
    have h4 := (Except.ok.injEq _ _).mp h
    exact (congrArg Prod.fst h4).symm
  · rw [if_neg hc, hrec] at h
    exact absurd h (by simp)

end DataManager

namespace DataManager

open PyDict PySort

theorem dedupFirstGo_eq_self (l : List String) : ∀ seen : List String,
    l.Nodup → (∀ x ∈ l, x ∉ seen) → dedupFirstGo seen l = l := by
  induction l with
  | nil => intro seen _ _; rfl
  | cons x xs ih =>
    intro seen hnd hout
    rw [dedupFirstGo, if_neg (hout x (List.mem_cons_self x xs))]
    congr 1
    refine ih (x :: seen) (List.Nodup.of_cons hnd) ?_
    intro y hy
    rw [List.mem_cons, not_or]
    exact ⟨fun he => (List.rel_of_pairwise_cons hnd hy) he.symm,
      hout y (List.mem_cons_of_mem x hy)⟩

theorem dedupFirst_eq_self (l : List String) (h : l.Nodup) :
    dedupFirst l = l :=
  dedupFirstGo_eq_self l [] h (fun x _ => List.not_mem_nil x)

theorem lookup_append_self {β : Type} (m : List (String × β)) (k : String)
    (v : β) (hm : m.lookup k = none) :
    (m ++ [(k, v)]).lookup k = some v := by
  induction m with
  | nil => simp [List.lookup]
  | cons hd tl ih =>
    obtain ⟨a, w⟩ := hd
    simp only [List.cons_append, List.lookup] at hm ⊢
    cases hka : (k == a) with
    | true => simp [hka] at hm
    | false =>
      simp only [hka] at hm ⊢
      exact ih hm

theorem lookup_append_ne {β : Type} (m : List (String × β)) (k : String)
    (v : β) (x : String) (hx : x ≠ k) :
    (m ++ [(k, v)]).lookup x = m.lookup x := by
  induction m with
  | nil => simp [List.lookup, beq_false_of_ne hx]
  | cons hd tl ih =>
    obtain ⟨a, w⟩ := hd
    simp only [List.cons_append, List.lookup]
    cases hka : (x == a) with
    | true => simp [hka]
    | false =>
      simp only [hka]
      exact ih

theorem scoreOf_updRecord_self (m : RecMap) (k : String) (c : Contribution) :
    scoreOf (updRecord m k c) k = scoreOf m k + c.points := by
  unfold updRecord scoreOf
  cases hl : m.lookup k with
  | some v =>
    rw [if_pos (show (some v).isSome = true from rfl), lookup_updFirst_self,
      hl]
    rfl
  | none =>
    rw [if_neg (show ¬(none : Option Participant).isSome = true by simp),
      lookup_append_self m k _ hl]
    show c.points = 0 + c.points
    rw [zero_add]

theorem scoreOf_updRecord_ne (m : RecMap) (k : String) (c : Contribution)
    (x : String) (hx : x ≠ k) :
    scoreOf (updRecord m k c) x = scoreOf m x := by
  unfold updRecord scoreOf
  by_cases hl : (m.lookup k).isSome
  · rw [if_pos hl, lookup_updFirst_ne m k x _ hx]
  · rw [if_neg hl, lookup_append_ne m k _ x hx]

/-- Rows whose stripped nickname never equals `x` do not change `x`'s
score. -/
theorem scoreLoop_scoreOf_other (rus : List String) (now fn : String)
    (base mult : ℚ) (rows : List (String × ℤ)) :
    ∀ (m : RecMap) (x : String), (∀ p ∈ rows, pyStrip p.1 ≠ x) →
      scoreOf (scoreLoop rus now fn base mult m rows) x = scoreOf m x := by
  induction rows with
  | nil => intro m x _; rfl
  | cons hd rest ih =>
    obtain ⟨n, uw⟩ := hd
    intro m x hx
    by_cases hs : pyStrip n ≠ ""
    · rw [scoreLoop, if_pos hs]
      rw [ih _ x (fun p hp => hx p (List.mem_cons_of_mem _ hp))]
      exact scoreOf_updRecord_ne m (pyStrip n) _ x
        (fun he => hx (n, uw) (List.mem_cons_self _ _) he.symm)
    · rw [scoreLoop, if_neg hs]
      exact ih m x (fun p hp => hx p (List.mem_cons_of_mem _ hp))

/-- Per-row effect of the scoring loop when the (already stripped, pairwise
distinct, non-blank) nicknames occur once each: every row's nickname gains
exactly its own points. -/
theorem scoreLoop_scoreOf_mem (rus : List String) (now fn : String)
    (base mult : ℚ) (rows : List (String × ℤ)) :
    ∀ m : RecMap, (∀ p ∈ rows, pyStrip p.1 = p.1 ∧ p.1 ≠ "") →
      (rows.map Prod.fst).Nodup →
      ∀ p ∈ rows,
        scoreOf (scoreLoop rus now fn base mult m rows) p.1 =
          scoreOf m p.1 +
            (if p.1 ∈ rus then mult * (base * (p.2 : ℚ))
             else base * (p.2 : ℚ)) := by
  induction rows with
  | nil =>
    intro m _ _ p hp
    simp at hp
  | cons hd rest ih =>
    obtain ⟨n, uw⟩ := hd
    intro m hclean hnd p hp
    have hn := hclean (n, uw) (List.mem_cons_self _ _)
    have hs : pyStrip n ≠ "" := by rw [hn.1]; exact hn.2
    have hnd3 : (n :: rest.map Prod.fst).Nodup := by
      rw [List.map_cons] at hnd
      exact hnd
    have hnd2 := List.nodup_cons.mp hnd3
    rcases List.mem_cons.mp hp with hp1 | hp1
    · rw [hp1]
      show scoreOf (scoreLoop rus now fn base mult m ((n, uw) :: rest)) n =
        scoreOf m n +
          (if n ∈ rus then mult * (base * (uw : ℚ)) else base * (uw : ℚ))
      rw [scoreLoop, if_pos hs]
      have hother : ∀ q ∈ rest, pyStrip q.1 ≠ n := by
        intro q hq he
        have hq1 := (hclean q (List.mem_cons_of_mem _ hq)).1
        rw [hq1] at he
        exact hnd2.1 (he ▸ List.mem_map_of_mem Prod.fst hq)
      rw [scoreLoop_scoreOf_other rus now fn base mult rest _ n hother]
      rw [hn.1, scoreOf_updRecord_self]
      congr 1
      by_cases hmem : n ∈ rus
      · simp [hmem]
      · simp [hmem]
    · rw [scoreLoop, if_pos hs]
      rw [ih _ (fun q hq2 => hclean q (List.mem_cons_of_mem _ hq2))
        hnd2.2 p hp1]
      congr 1
      apply scoreOf_updRecord_ne
      intro he
      rw [hn.1] at he
      have he2 : p.1 = n := he
      exact hnd2.1 (he2 ▸ List.mem_map_of_mem Prod.fst hp1)

end DataManager

namespace DataManager

open PyDict PySort

theorem timeLe_iff (a b : String × String) : timeLe a b = true ↔ a.2 ≤ b.2 := by
  simp [timeLe, not_lt]

/-- The stably sorted pair list is strictly increasing in the time component
when the raw times are pairwise distinct. -/
theorem sortBy_timeLe_strict (nicknames times : List String)
    (hlen : times.length = nicknames.length) (htdup : times.Nodup) :
    (sortBy timeLe (nicknames.zip times)).Pairwise
      (fun a b => a.2 < b.2) := by
  have hperm := sortBy_perm timeLe (nicknames.zip times)
  have hle : (sortBy timeLe (nicknames.zip times)).Pairwise
      (fun a b => timeLe a b = true) := by
    refine pairwise_sortBy timeLe ?_ ?_ _
    · intro a b c hab hbc
      rw [timeLe_iff] at hab hbc ⊢
      exact le_trans hab hbc
    · intro a b
      rw [timeLe_iff, timeLe_iff]
      exact le_total a.2 b.2
  have hsndeq : (nicknames.zip times).map Prod.snd = times :=
    List.map_snd_zip nicknames times (le_of_eq hlen)
  have hsnd : ((sortBy timeLe (nicknames.zip times)).map Prod.snd).Nodup :=
    ((hperm.map Prod.snd).nodup_iff).mpr (by rw [hsndeq]; exact htdup)
  have hne : (sortBy timeLe (nicknames.zip times)).Pairwise
      (fun a b => a.2 ≠ b.2) := List.pairwise_map.mp hsnd
  exact (hle.and hne).imp
    (fun h => lt_of_le_of_ne ((timeLe_iff _ _).mp h.1) h.2)

/-- In a strictly sorted list, an element lies in the first `k'` entries
exactly when fewer than `k'` entries have a smaller key. -/
theorem mem_take_iff_rank (s : List (String × String)) (k2 : ℕ)
    (hps : s.Pairwise (fun a b => a.2 < b.2)) (x : String × String)
    (hx : x ∈ s) :
    x ∈ s.take k2 ↔
      (s.filter (fun y => decide (y.2 < x.2))).length < k2 := by
  obtain ⟨l1, l2, hsplit⟩ := List.append_of_mem hx
  subst hsplit
  obtain ⟨hp1, hp2, hp12⟩ := List.pairwise_append.mp hps
  have h1 : ∀ y ∈ l1, y.2 < x.2 := fun y hy =>
    hp12 y hy x (List.mem_cons_self x l2)
  have h2 : ∀ y ∈ l2, x.2 < y.2 := fun y hy =>
    List.rel_of_pairwise_cons hp2 hy
  have hfil : (l1 ++ x :: l2).filter (fun y => decide (y.2 < x.2)) = l1 := by
    rw [List.filter_append, List.filter_cons]
    have hl1 : l1.filter (fun y => decide (y.2 < x.2)) = l1 :=
      List.filter_eq_self.mpr (fun y hy => by simpa using h1 y hy)
    have hxx : (decide (x.2 < x.2)) = false := by simp
    have hl2 : l2.filter (fun y => decide (y.2 < x.2)) = [] :=
      List.filter_eq_nil_iff.mpr (fun y hy => by
        simpa using lt_asymm (h2 y hy))
    rw [hl1, hl2, hxx]
    simp
  rw [hfil]
  constructor
  · intro hmem
    by_contra hge
    push_neg at hge
    rw [List.take_append_of_le_length hge] at hmem
    exact absurd (h1 x (List.mem_of_mem_take hmem)) (lt_irrefl _)
  · intro hlt
    rw [List.take_append_eq_append_take]
    refine List.mem_append_right _ ?_
    rcases hk3 : k2 - l1.length with _ | mm
    · omega
    · rw [List.take_succ_cons]
      exact List.mem_cons_self x _

/-- Counting pairs by a condition on the time component equals counting the
raw times. -/
theorem filter_snd_length (nicknames times : List String)
    (hlen : times.length = nicknames.length) (c : String) :
    ((nicknames.zip times).filter (fun y => decide (y.2 < c))).length =
      (times.filter (fun t => decide (t < c))).length := by
  have hsndeq : (nicknames.zip times).map Prod.snd = times :=
    List.map_snd_zip nicknames times (le_of_eq hlen)
  have h1 : times.filter (fun t => decide (t < c)) =
      (((nicknames.zip times).filter
        ((fun t => decide (t < c)) ∘ Prod.snd)).map Prod.snd) := by
    rw [← List.filter_map, hsndeq]
  have h2 : (nicknames.zip times).filter
      ((fun t => decide (t < c)) ∘ Prod.snd) =
      (nicknames.zip times).filter (fun y => decide (y.2 < c)) :=
    List.filter_congr (fun y _ => rfl)
  rw [h1, h2, List.length_map]

/-- Characterisation of the rewarded set under the hypotheses of the reward
claim: it has exactly `k.toNat` members, and the identifier of row `i`
belongs to it exactly when fewer than `k` rows carry a smaller raw
timestamp. -/
theorem rewardUsersOf_spec (nicknames times : List String) (k : ℤ)
    (hlen : times.length = nicknames.length) (hnodup : nicknames.Nodup)
    (htdup : times.Nodup) (htimes : ∀ t ∈ times, validTime t = true)
    (hk : 0 < k) (hkn : k ≤ (nicknames.length : ℤ)) :
    (rewardUsersOf nicknames times k).length = k.toNat ∧
    ∀ (i : ℕ) (hi : i < nicknames.length) (hi2 : i < times.length),
      (nicknames[i] ∈ rewardUsersOf nicknames times k ↔
        ((times.filter (fun t => decide (t < times[i]))).length : ℤ) < k) := by
  have hnpos : 0 < nicknames.length := by omega
  have htpos : 0 < times.length := hlen ▸ hnpos
  have htne : times ≠ [] := List.length_pos.mp htpos
  have hany : times.any (fun t => t != "") = true := by
    obtain ⟨t0, ht0⟩ := List.exists_mem_of_ne_nil times htne
    rw [List.any_eq_true]
    refine ⟨t0, ht0, ?_⟩
    have hv := htimes t0 ht0
    rw [validTime] at hv
    by_contra hb
    rw [Bool.not_eq_true] at hb
    rw [hb] at hv
    simp at hv
  have hcond : k > 0 ∧ times ≠ [] ∧ times.any (fun t => t != "") := by
    exact ⟨hk, htne, hany⟩
  have hzlen : (nicknames.zip times).length = nicknames.length := by
    rw [List.length_zip, hlen, min_self]
  have hfilter : (nicknames.zip times).filter (fun p => validTime p.2) =
      nicknames.zip times :=
    List.filter_eq_self.mpr
      (fun p hp => htimes p.2 (List.of_mem_zip hp).2)
  have hzne : nicknames.zip times ≠ [] := by
    rw [← List.length_pos, hzlen]
    exact hnpos
  have hru : rewardUsersOf nicknames times k =
      dedupFirst (((sortBy timeLe (nicknames.zip times)).take k.toNat).map
        Prod.fst) := by
    rw [rewardUsersOf, if_pos hcond]
    simp only [hfilter]
    rw [if_pos hzne]
  have hperm := sortBy_perm timeLe (nicknames.zip times)
  have hslen : (sortBy timeLe (nicknames.zip times)).length =
      nicknames.length := hperm.length_eq.trans hzlen
  have hfsteq : (nicknames.zip times).map Prod.fst = nicknames :=
    List.map_fst_zip nicknames times (le_of_eq hlen.symm)
  have hfstnodup : ((sortBy timeLe (nicknames.zip times)).map
      Prod.fst).Nodup :=
    ((hperm.map Prod.fst).nodup_iff).mpr (by rw [hfsteq]; exact hnodup)
  have htknodup : (((sortBy timeLe (nicknames.zip times)).take
      k.toNat).map Prod.fst).Nodup :=
    List.Nodup.sublist
      (List.Sublist.map Prod.fst (List.take_sublist _ _)) hfstnodup
  have hdedup : rewardUsersOf nicknames times k =
      ((sortBy timeLe (nicknames.zip times)).take k.toNat).map Prod.fst := by
    rw [hru, dedupFirst_eq_self _ htknodup]
  have hklen : k.toNat ≤ nicknames.length := by omega
  constructor
  · rw [hdedup, List.length_map, List.length_take, hslen]
    omega
  · intro i hi hi2
    have hzi : i < (nicknames.zip times).length := by
      rw [hzlen]
      exact hi
    have hmemz : (nicknames[i], times[i]) ∈ nicknames.zip times := by
      rw [List.mem_iff_getElem]
      exact ⟨i, hzi, List.getElem_zip⟩
    have hmems : (nicknames[i], times[i]) ∈
        sortBy timeLe (nicknames.zip times) := hperm.mem_iff.mpr hmemz
    have hmem_iff : nicknames[i] ∈ rewardUsersOf nicknames times k ↔
        (nicknames[i], times[i]) ∈
          (sortBy timeLe (nicknames.zip times)).take k.toNat := by
      rw [hdedup]
      constructor
      · intro hm
        obtain ⟨p, hp, hp1⟩ := List.mem_map.mp hm
        have hpz : p ∈ nicknames.zip times :=
          hperm.mem_iff.mp (List.mem_of_mem_take hp)
        obtain ⟨j, hj, hjp⟩ := List.mem_iff_getElem.mp hpz
        rw [List.getElem_zip] at hjp
        have hj2 : j < nicknames.length := by
          rw [hzlen] at hj
          exact hj
        have hfst : nicknames[j] = nicknames[i] := by
          rw [← hp1, ← hjp]
        have hij : j = i := (hnodup.getElem_inj_iff).mp hfst
        subst hij
        rw [hjp]
        exact hp
      · intro hm
        exact List.mem_map_of_mem Prod.fst hm
    rw [hmem_iff,
      mem_take_iff_rank _ k.toNat
        (sortBy_timeLe_strict nicknames times hlen htdup) _ hmems]
    have hranks : ((sortBy timeLe (nicknames.zip times)).filter
        (fun y => decide (y.2 < (nicknames[i], times[i]).2))).length =
        (times.filter (fun t => decide (t < times[i]))).length := by
      rw [(hperm.filter _).length_eq]
      exact filter_snd_length nicknames times hlen times[i]
    rw [hranks, ← Int.lt_toNat]

end DataManager

namespace DataManager

theorem updateScoresGo_snd (d : Doc) (now : String)
    (nicknames times : List String) (file_name : String) (weights : List ℤ)
    (base_score : ℚ) (reward_count : ℤ) (reward_multiplier : ℚ)
    (group_by : String) :
    (updateScoresGo d now nicknames times file_name weights base_score
      reward_count reward_multiplier group_by).2 =
      (rewardUsersOf nicknames times reward_count).length := rfl

theorem chosenMap_updateScoresGo (d : Doc) (now : String)
    (nicknames times : List String) (file_name : String) (weights : List ℤ)
    (base_score : ℚ) (reward_count : ℤ) (reward_multiplier : ℚ)
    (group_by : String) :
    chosenMap (updateScoresGo d now nicknames times file_name weights
      base_score reward_count reward_multiplier group_by).1 group_by =
      scoreLoop (rewardUsersOf nicknames times reward_count) now file_name
        base_score reward_multiplier (chosenMap d group_by)
        (nicknames.zip weights) := by
  obtain ⟨f0, f1, f2⟩ := updateScoresGo_fields d now nicknames times
    file_name weights base_score reward_count reward_multiplier group_by
  unfold chosenMap
  by_cases hg : group_by = "name"
  · rw [if_pos hg, f2]
    simp [hg]
  · rw [if_neg hg, f1]
    simp [hg]

end DataManager

namespace Claims

open PyDict PySort DataManager ExcelProcessor

/-- C3: reward correctness.  For a call with per-row weights of matching
length, cleaned pairwise-distinct identifiers, and pairwise-distinct valid
(non-blank, non-`nan`) timestamp strings, with `0 < k ≤ n`: the call
succeeds returning exactly `k` as the rewarded count, and row `i`'s
identifier is credited `mult * (base * weight[i])` exactly when fewer than
`k` rows carry a lexicographically smaller timestamp (the `k` earliest
rows), and `base * weight[i]` otherwise. -/
theorem reward_correctness (d : Doc) (now : String)
    (nicknames times : List String) (file_name : String) (ws : List ℤ)
    (base_score : ℚ) (k : ℤ) (mult : ℚ) (group_by : String)
    (hlen : times.length = nicknames.length)
    (hlenw : ws.length = nicknames.length)
    (hclean : ∀ n ∈ nicknames, pyStrip n = n ∧ n ≠ "")
    (hnodup : nicknames.Nodup) (htdup : times.Nodup)
    (htimes : ∀ t ∈ times, validTime t = true)
    (hk : 0 < k) (hkn : k ≤ (nicknames.length : ℤ)) :
    ∃ d2 : Doc,
      updateScoresWithRewards d now nicknames times file_name (Sum.inr ws)
          base_score k mult group_by = .ok (d2, k.toNat) ∧
      ∀ (i : ℕ) (hi : i < nicknames.length) (hi2 : i < times.length)
          (hi3 : i < ws.length),
        scoreOf (chosenMap d2 group_by) nicknames[i] =
          scoreOf (chosenMap d group_by) nicknames[i] +
            (if ((times.filter
                  (fun t => decide (t < times[i]))).length : ℤ) < k
             then mult * (base_score * (ws[i] : ℚ))
             else base_score * (ws[i] : ℚ)) := by
  obtain ⟨hlen_ru, hmem_ru⟩ := rewardUsersOf_spec nicknames times k hlen
    hnodup htdup htimes hk hkn
  refine ⟨(updateScoresGo d now nicknames times file_name ws base_score k
    mult group_by).1, ?_, ?_⟩
  · rw [updateScoresWithRewards,
      if_neg (show ¬ws.length ≠ nicknames.length by omega)]
    have h2 : (updateScoresGo d now nicknames times file_name ws base_score
        k mult group_by).2 = k.toNat := by
      rw [updateScoresGo_snd]
      exact hlen_ru
    rw [← h2]
  · intro i hi hi2 hi3
    rw [chosenMap_updateScoresGo d now nicknames times file_name ws
      base_score k mult group_by]
    have hzi : i < (nicknames.zip ws).length := by
      rw [List.length_zip, hlenw, min_self]
      exact hi
    have hmemrow : (nicknames[i], ws[i]) ∈ nicknames.zip ws := by
      rw [List.mem_iff_getElem]
      exact ⟨i, hzi, List.getElem_zip⟩
    have hcleanrow : ∀ p ∈ nicknames.zip ws, pyStrip p.1 = p.1 ∧ p.1 ≠ "" :=
      fun p hp => hclean p.1 (List.of_mem_zip hp).1
    have hnd : ((nicknames.zip ws).map Prod.fst).Nodup := by
      rw [List.map_fst_zip nicknames ws (le_of_eq hlenw.symm)]
      exact hnodup
    have hloop2 : scoreOf (scoreLoop (rewardUsersOf nicknames times k) now
        file_name base_score mult (chosenMap d group_by)
        (nicknames.zip ws)) nicknames[i] =
        scoreOf (chosenMap d group_by) nicknames[i] +
          (if nicknames[i] ∈ rewardUsersOf nicknames times k
           then mult * (base_score * (ws[i] : ℚ))
           else base_score * (ws[i] : ℚ)) :=
      scoreLoop_scoreOf_mem (rewardUsersOf nicknames times k) now file_name
        base_score mult (nicknames.zip ws) (chosenMap d group_by) hcleanrow
        hnd (nicknames[i], ws[i]) hmemrow
    rw [hloop2]
    congr 1
    exact if_congr (hmem_ru i hi hi2) rfl rfl

theorem reward_correctness_witness :
    ∃ d2 : Doc,
      updateScoresWithRewards (initDoc "t0") "t1" ["b", "a"] ["2", "1"] "f"
          (Sum.inr [1, 2]) 1 1 2 "nickname" = .ok (d2, (1 : ℤ).toNat) ∧
      ∀ (i : ℕ) (hi : i < (["b", "a"] : List String).length)
          (hi2 : i < (["2", "1"] : List String).length)
          (hi3 : i < ([1, 2] : List ℤ).length),
        scoreOf (chosenMap d2 "nickname") (["b", "a"] : List String)[i] =
          scoreOf (chosenMap (initDoc "t0") "nickname")
              (["b", "a"] : List String)[i] +
            (if (((["2", "1"] : List String).filter
                  (fun t => decide
                    (t < (["2", "1"] : List String)[i]))).length : ℤ) < 1
             then 2 * (1 * (([1, 2] : List ℤ)[i] : ℚ))
             else 1 * (([1, 2] : List ℤ)[i] : ℚ)) :=
  reward_correctness (initDoc "t0") "t1" ["b", "a"] ["2", "1"] "f" [1, 2] 1
    1 2 "nickname" (by decide) (by decide) (by decide) (by decide)
    (by decide) (by decide) (by decide) (by decide)

end Claims

namespace Claims

open PyDict PySort DataManager ExcelProcessor

/-- `lbLe` spells out to the non-strict descending comparison on scores. -/
theorem lbLe_iff (a b : LBEntry) : lbLe a b = true ↔ b.score ≤ a.score := by
  simp [lbLe, not_lt]

/-- C7: a per-row weight sequence whose length differs from the identifier
list makes `update_scores_with_rewards` raise the length-mismatch
`ValueError` with the stored document unchanged, while a scalar weight is
broadcast and never fails on that account. -/
theorem weight_length_precondition (d : Doc) (now : String)
    (nicknames times : List String) (file_name : String) (ws : List ℤ)
    (base_score : ℚ) (reward_count : ℤ) (reward_multiplier : ℚ)
    (group_by : String) (h : ws.length ≠ nicknames.length) :
    updateScoresWithRewards d now nicknames times file_name (Sum.inr ws)
        base_score reward_count reward_multiplier group_by =
      .error .valueError ∧
    persistedAfter d (updateScoresWithRewards d now nicknames times file_name
        (Sum.inr ws) base_score reward_count reward_multiplier group_by) = d ∧
    ∀ w : ℤ, ∃ r, updateScoresWithRewards d now nicknames times file_name
        (Sum.inl w) base_score reward_count reward_multiplier group_by =
      .ok r := by
  refine ⟨?_, ?_, ?_⟩
  · simp [updateScoresWithRewards, h]
  · simp [updateScoresWithRewards, h, persistedAfter]
  · intro w
    exact ⟨_, rfl⟩

theorem weight_length_precondition_witness :
    ([1, 2] : List ℤ).length ≠ (["a"] : List String).length ∧
    updateScoresWithRewards (initDoc "t0") "t1" ["a"] [] "f" (Sum.inr [1, 2])
        1 0 1 "nickname" = .error .valueError := by
  refine ⟨by decide, ?_⟩
  exact (weight_length_precondition (initDoc "t0") "t1" ["a"] [] "f" [1, 2]
    1 0 1 "nickname" (by decide)).1

/-- C5 (code bug): the first ingestion of `"f.xlsx"` stores a
processed-files entry holding only `processed_date` — none of the aggregate
fields — and the subsequent `get_processed_files` call raises
`KeyError: 'nicknames_count'` on that entry instead of returning them. -/
theorem processed_file_record_missing_aggregates :
    (updateScoresWithRewards (initDoc "t0") "t1" ["alice"] [] "f.xlsx"
        (Sum.inl 1) 1 0 2 "nickname").map
      (fun r => (r.1.processed_files, getProcessedFiles r.1, r.2)) =
    .ok ([("f.xlsx", freshFileRec "t1")],
      .error (.keyError "nicknames_count"), 0) := by
  rfl

/-- C2 (code bug): re-importing an export of any document without the legacy
`records` key — every document the manager itself creates — fails:
`import_data` validates the legacy required fields `records` and
`total_files_processed`, which `export_user_data` never produces, so the
round trip returns `False` and keeps the previous document instead of
restoring the exported one. -/
theorem import_of_export_fails (cur d : Doc) (tE sid tI : String)
    (h : d.records = none) :
    importData cur (exportUserData d tE sid) tI = (cur, false) := by
  simp [importData, exportUserData, h]


theorem import_of_export_fails_witness :
    (initDoc "t0").records = none ∧
    importData (initDoc "t0") (exportUserData (initDoc "t0") "tE" "sid") "tI" =
      (initDoc "t0", false) :=
  ⟨by decide, import_of_export_fails (initDoc "t0") (initDoc "t0") "tE" "sid"
    "tI" (by decide)⟩

/-- C6 (code bug): on any document without the legacy `records` key — in
particular every document the manager itself creates — a merge request with
non-empty sources and a non-empty target raises `KeyError: 'records'`
instead of merging and returning `True`. -/
theorem merge_keyError_on_current_schema (d : Doc) (now : String)
    (sources : List String) (target : String) (hr : d.records = none)
    (hs : sources ≠ []) (ht : target ≠ "") :
    mergeNicknames d now sources target = .error (.keyError "records") := by
  have hcond : ¬(sources = [] ∨ target = "") := by
    intro hc
    rcases hc with hc | hc
    · exact hs hc
    · exact ht hc
  simp only [mergeNicknames, if_neg hcond, hr]

theorem merge_keyError_on_current_schema_witness :
    (initDoc "t0").records = none ∧ (["a"] : List String) ≠ [] ∧
    ("a" : String) ≠ "" ∧
    mergeNicknames (initDoc "t0") "t1" ["a"] "a" =
      .error (.keyError "records") :=
  ⟨by decide, by decide, by decide,
    merge_keyError_on_current_schema (initDoc "t0") "t1" ["a"] "a" (by decide)
      (by decide) (by decide)⟩

/-- C8: `get_leaderboard` output is sorted non-increasingly by score, and for
every score value the entries holding it appear in exactly the order their
records occur in the underlying participant mapping (stability). -/
theorem leaderboard_sorted_and_stable (d : Doc) (group_by : String) :
    (getLeaderboard d group_by).Pairwise (fun a b => b.score ≤ a.score) ∧
    ∀ s : ℚ,
      (getLeaderboard d group_by).filter (fun e => decide (e.score = s)) =
        (leaderboardEntries (chosenMap d group_by)).filter
          (fun e => decide (e.score = s)) := by
  constructor
  · have hp := pairwise_sortBy lbLe
      (fun a b c hab hbc => by
        rw [lbLe_iff] at hab hbc ⊢
        exact le_trans hbc hab)
      (fun a b => by
        rw [lbLe_iff, lbLe_iff]
        exact le_total b.score a.score)
      (leaderboardEntries (chosenMap d group_by))
    exact hp.imp (fun hab => (lbLe_iff _ _).mp hab)
  · intro s
    exact filter_sortBy lbLe (fun e => decide (e.score = s))
      (fun a b ha hb => by
        rw [lbLe_iff]
        rw [decide_eq_true_eq] at ha hb
        rw [ha, hb])
      (leaderboardEntries (chosenMap d group_by))

/-- C10: the extraction loop deduplicates by first occurrence: its output
lists are the cleaned nickname, stringified time and looked-up weight of
exactly the rows whose cleaned nickname is non-empty and does not occur in
any earlier row (`keptIdx`, an increasing index list, so output order is
file order of first occurrences); the identifier list has no duplicates and
the three lists are parallel. -/
theorem extraction_dedup_first_occurrence (imgMap : List (String × ℤ))
    (pairs : List RawRow) :
    extractLoop imgMap [] pairs =
      ((keptIdx pairs).map (cleanAt pairs),
       (keptIdx pairs).map (fun i => pyTimeStr (pairs.getD i (none, none)).2),
       (keptIdx pairs).map
         (fun i => (imgMap.lookup (cleanAt pairs i)).getD 1)) ∧
    (extractLoop imgMap [] pairs).1.Nodup ∧
    (extractLoop imgMap [] pairs).2.1.length =
      (extractLoop imgMap [] pairs).1.length ∧
    (extractLoop imgMap [] pairs).2.2.length =
      (extractLoop imgMap [] pairs).1.length :=
  ⟨extractLoop_eq_keptIdxSeen imgMap pairs [],
    extractLoop_nodup imgMap pairs [],
    (extractLoop_lengths imgMap pairs []).1,
    (extractLoop_lengths imgMap pairs []).2⟩

/-- C4 counterexample: a worksheet whose header row is just `昵称` and whose
single data row holds `alice` with no hyperlink has no numbered image column
at all, yet the image-count pass records `alice ↦ 0` and the extraction of
the corresponding row assigns weight 0, not the weight 1 the claim
demands. -/
theorem extraction_weight_zero_counterexample :
    count_images_in_excel ⟨[some "昵称"], [[⟨some "alice", false⟩]]⟩ =
      [("alice", 0)] ∧
    extractLoop
        (count_images_in_excel ⟨[some "昵称"], [[⟨some "alice", false⟩]]⟩) []
        [(some "alice", none)] =
      (["alice"], [""], [0]) :=
  ⟨rfl, rfl⟩

/-- C4 amended: an extracted row's weight is the image-count map's entry for
its cleaned identifier with default 1 — so weight 1 is assigned exactly when
the identifier is absent from that map (in particular whenever the count
pass finds no keyword-matched identifier column and returns the empty map),
while a row counted with zero hyperlinked numbered-image cells is assigned
weight 0. -/
theorem extraction_weight_from_count (s : Sheet) (pairs : List RawRow)
    (i : ℕ)
    (h : i < (extractLoop (count_images_in_excel s) [] pairs).1.length) :
    (extractLoop (count_images_in_excel s) [] pairs).2.2.getD i 0 =
      ((count_images_in_excel s).lookup
        ((extractLoop (count_images_in_excel s) [] pairs).1.getD i "")).getD
        1 ∧
    (nicknameColIdx s.headers = none →
      (extractLoop (count_images_in_excel s) [] pairs).2.2.getD i 0 = 1) := by
  refine ⟨extract_weight_getD _ pairs [] i h, ?_⟩
  intro hn
  have hmap : count_images_in_excel s = [] := by
    simp [count_images_in_excel, hn]
  rw [extract_weight_getD _ pairs [] i h, hmap]
  simp [List.lookup]

theorem extraction_weight_from_count_witness :
    0 < (extractLoop (count_images_in_excel ⟨[some "x"], []⟩) []
        [(some "alice", none)]).1.length ∧
    (extractLoop (count_images_in_excel ⟨[some "x"], []⟩) []
        [(some "alice", none)]).2.2.getD 0 0 = 1 :=
  ⟨by decide,
    (extraction_weight_from_count ⟨[some "x"], []⟩ [(some "alice", none)] 0
      (by decide)).2 (by decide)⟩

/-- C9 counterexample: headers match no identifier keyword and exactly 7 of
the first 10 non-missing values of the first column are non-blank strings
(70%); the claim says the first column is selected, but the code's strict
`> 0.7` comparison rejects it and `find_nickname_column` returns none. -/
theorem fallback_exact_seventy_counterexample :
    noKeywordMatch ["col1"] = true ∧
    (sampleOf (List.replicate 7 (PVal.vStr "a") ++
        List.replicate 3 (PVal.vNum 1))).length = 10 ∧
    textCountOf (sampleOf (List.replicate 7 (PVal.vStr "a") ++
        List.replicate 3 (PVal.vNum 1))) = 7 ∧
    find_nickname_column
        ⟨[("col1", List.replicate 7 (PVal.vStr "a") ++
            List.replicate 3 (PVal.vNum 1))]⟩ = none := by
  refine ⟨rfl, rfl, rfl, ?_⟩
  rw [find_nickname_column_fallback_eq
    ⟨[("col1", List.replicate 7 (PVal.vStr "a") ++
        List.replicate 3 (PVal.vNum 1))]⟩ "col1"
    (List.replicate 7 (PVal.vStr "a") ++ List.replicate 3 (PVal.vNum 1)) []
    rfl (by decide)]
  rw [show textCountOf (sampleOf (List.replicate 7 (PVal.vStr "a") ++
      List.replicate 3 (PVal.vNum 1))) = 7 from rfl,
    show (sampleOf (List.replicate 7 (PVal.vStr "a") ++
      List.replicate 3 (PVal.vNum 1))).length = 10 from rfl]
  rw [if_neg]
  rintro ⟨-, h⟩
  norm_num at h

/-- C9 amended: when no header matches an identifier keyword exactly or as a
substring, `find_nickname_column` selects the first column if and only if
the sample of its first 10 non-missing values is non-empty and strictly more
than 70% of the sampled values are non-blank strings; at exactly 70% (or
below) it returns none. -/
theorem fallback_strict_seventy (df : DFrame) (c0 : String)
    (vals : List PVal) (rest : List (String × List PVal))
    (hcols : df.cols = (c0, vals) :: rest)
    (hkw : noKeywordMatch (df.cols.map Prod.fst) = true) :
    find_nickname_column df =
      (if 0 < (sampleOf vals).length ∧
          ((textCountOf (sampleOf vals) : ℚ) / ((sampleOf vals).length : ℚ) >
            7 / 10)
       then some c0 else none) :=
  find_nickname_column_fallback_eq df c0 vals rest hcols hkw

theorem fallback_strict_seventy_witness :
    noKeywordMatch ((DFrame.mk [("col1",
        List.replicate 8 (PVal.vStr "a") ++
          List.replicate 2 (PVal.vNum 1))]).cols.map Prod.fst) = true ∧
    find_nickname_column
        ⟨[("col1", List.replicate 8 (PVal.vStr "a") ++
            List.replicate 2 (PVal.vNum 1))]⟩ = some "col1" := by
  refine ⟨by decide, ?_⟩
  rw [fallback_strict_seventy
    ⟨[("col1", List.replicate 8 (PVal.vStr "a") ++
        List.replicate 2 (PVal.vNum 1))]⟩ "col1"
    (List.replicate 8 (PVal.vStr "a") ++ List.replicate 2 (PVal.vNum 1)) []
    rfl (by decide)]
  rw [show textCountOf (sampleOf (List.replicate 8 (PVal.vStr "a") ++
      List.replicate 2 (PVal.vNum 1))) = 8 from rfl,
    show (sampleOf (List.replicate 8 (PVal.vStr "a") ++
      List.replicate 2 (PVal.vNum 1))).length = 10 from rfl]
  rw [if_pos]
  constructor
  · norm_num
  · norm_num

/-- C1: score conservation.  Every document reachable from a fresh session
document through any sequence of `update_scores_with_rewards`,
`update_existing_file_scores` and `merge_nicknames` calls (with arbitrary
arguments; a call that raises leaves the persisted document unchanged)
satisfies `score = sum(points over files)` for every participant record in
both participant maps.  On such documents the two legacy operations never
complete a score mutation: they raise `KeyError: 'records'` on the first
non-blank nickname (or return early), so only the conserving
`update_scores_with_rewards` path ever changes scores. -/
theorem score_conservation (d : Doc) (h : Reach d) : docConserves d := by
  induction h with
  | init now => exact docConserves_init now
  | update d now nicknames times file_name weight base_score reward_count
      reward_multiplier group_by d2 r hr heq ih =>
    exact update_ok_conserves d now nicknames times file_name weight
      base_score reward_count reward_multiplier group_by d2 r heq ih
  | updateExisting d now nicknames file_name new_weight d2 hr heq ih =>
    obtain ⟨e0, e1, e2⟩ := existing_ok_fields d now nicknames file_name
      new_weight d2 heq ih.1
    exact ⟨e0, e1 ▸ ih.2.1, e2 ▸ ih.2.2⟩
  | merge d now sources target d2 b hr heq ih =>
    rw [merge_ok_unchanged d now sources target d2 b heq ih.1]
    exact ih

theorem score_conservation_witness : docConserves (initDoc "t0") :=
  score_conservation (initDoc "t0") (Reach.init "t0")

end Claims
